import Mathlib

/-!
Verification of the BRKGA population engine (`src/brkga.py`).

The engine is embedded shallowly: the population of random keys is a list of
rows (each row a list of rationals standing for the float tensor entries),
randomness consumed by `evolve` (fresh mutant rows, parent selector draws,
per-gene coin flips) is passed in explicitly, and Python-level failures
(subscripting the `None` ranking) are modelled with an `Except` channel.
-/

namespace Brkga

/-- Gene values: the float64 tensor entries are modelled as rationals. -/
abbrev Gene := ℚ

/-- A row of the population tensor: one chromosome / random-key vector. -/
abbrev Row := List Gene

/-- Exceptions observable from the Python code.  `typeError` is what Python
raises when the `None` stored in `self.indexes` is subscripted; the other
constructors are the error kinds named by the specification (no class of
those names exists in the source). -/
inductive PyExc where
  | typeError
  | configError
  | preconditionError
  | stateError
deriving DecidableEq, Repr

/-- State of a `BRKGA` instance (`BRKGA.__init__` fields).  `keys` holds the
population tensor, `indexes` the ranking from the most recent `orderBy`
(`None` before the first call), and the three counts are the Python ints
computed in the constructor. -/
structure BRKGA where
  keys : List Row
  indexes : Option (List ℕ)
  eliteCount : ℤ
  mutantCount : ℤ
  nonMutantCount : ℤ
deriving Repr

/-- `BRKGA.__init__(populationShape, elites, mutants, ...)`.  The freshly
drawn `torch.rand` population is passed in as `initKeys` (randomness as an
explicit input).  The constructor performs no validation: it coerces the
counts with `max` and always produces a population. -/
def mkBRKGA (initKeys : List Row) (elites mutants : ℤ) : BRKGA where
  keys := initKeys
  indexes := none
  eliteCount := max 1 elites
  mutantCount := max 0 mutants
  nonMutantCount := (initKeys.length : ℤ) - max 0 mutants

/-- The constructor with an explicit exception channel: the Python body of
`BRKGA.__init__` contains no `raise` and no call that can fail, so the
result is always `ok`. -/
def mkBRKGAE (initKeys : List Row) (elites mutants : ℤ) : Except PyExc BRKGA :=
  .ok (mkBRKGA initKeys elites mutants)

/-- Python slice index resolution for `a[i:j]` on a list of length `n`:
negative indices count from the end, then the index is clamped to `[0, n]`. -/
def sliceIdx (n : ℕ) (i : ℤ) : ℕ :=
  (if i < 0 then (n : ℤ) + i else i).toNat.min n

/-- Python slice `xs[i:j]` (step 1), with full negative-index semantics. -/
def pySlice (xs : List α) (i j : ℤ) : List α :=
  (xs.take (sliceIdx xs.length j)).drop (sliceIdx xs.length i)

/-- Tensor fancy indexing `t[idxs]` for a row list: row `idxs[k]` of `t`
for each `k`.  Under the in-range hypotheses of the theorems the default
row is never consulted. -/
def tensorIndex (t : List Row) (idxs : List ℕ) : List Row :=
  idxs.map (fun i => t.getD i [])

/-- Three-list pointwise combination, the list form of an elementwise
operation on three equal-shape tensors. -/
def zip3With (f : α → β → γ → δ) : List α → List β → List γ → List δ
  | a :: as, b :: bs, c :: cs => f a b c :: zip3With f as bs cs
  | _, _, _ => []

/-- One offspring row of `BRKGA.evolve`:
`offspringSelectors * selectedElites + (1 - offspringSelectors) * selectedNonElites`
per gene, where the Bernoulli draw is `true` for `1.0` (copy the elite
parent's gene) and `false` for `0.0` (copy the pool parent's gene). -/
def crossRow (coins : List Bool) (e p : Row) : Row :=
  zip3With (fun c a b => if c then a else b) coins e p

/-- The randomness consumed by one call to `BRKGA.evolve`:
`mutants` are the `torch.rand(mutantCount, *keyShape)` rows,
`eliteSel` the `multinomial` draws over the elites (uniform weights `0.5`),
`poolSel` the `multinomial` draws over the non-elite pool, and `coins` the
per-offspring per-gene `bernoulli(0.5)` flips. -/
structure EvolveRand where
  mutants : List Row
  eliteSel : List ℕ
  poolSel : List ℕ
  coins : List (List Bool)

/-- The non-elite reproduction pool built by `BRKGA.evolve`: the ranked rows
`indexes[eliteCount : nonMutantCount]` carried over, followed by the fresh
mutant rows when `mutantCount > 0` (the `torch.cat([... , mutants], 0)`). -/
def reproPool (b : BRKGA) (idx : List ℕ) (mutants : List Row) : List Row :=
  if b.mutantCount > 0 then
    tensorIndex b.keys (pySlice idx b.eliteCount b.nonMutantCount) ++ mutants
  else
    tensorIndex b.keys (pySlice idx b.eliteCount b.nonMutantCount)

/-- The elite rows read inside `BRKGA.evolve` (and by the `elites`
property): `self.keys[self.indexes[:self.eliteCount]]`. -/
def eliteRows (b : BRKGA) (idx : List ℕ) : List Row :=
  tensorIndex b.keys (pySlice idx 0 b.eliteCount)

/-- The body of `BRKGA.evolve` given the ranking `idx` stored in
`self.indexes` and the random draws `r`: `selectedElites` and
`selectedNonElites` are the parent rows picked by the `multinomial` draws,
`zip3With crossRow` is the elementwise
`selectors * selectedElites + (1 - selectors) * selectedNonElites`, and the
result is the new population written back by
`torch.cat([elites, offspring], 0, out=self.keys)`. -/
def evolveKeys (b : BRKGA) (idx : List ℕ) (r : EvolveRand) : List Row :=
  eliteRows b idx ++
    zip3With crossRow r.coins
      (tensorIndex (eliteRows b idx) r.eliteSel)
      (tensorIndex (reproPool b idx r.mutants) r.poolSel)

/-- `BRKGA.evolve` with the Python exception channel: subscripting
`self.indexes = None` raises `TypeError`. -/
def evolveE (b : BRKGA) (r : EvolveRand) : Except PyExc (List Row) :=
  match b.indexes with
  | none => .error .typeError
  | some idx => .ok (evolveKeys b idx r)

/-- The `BRKGA.elites` property: `self.keys[self.indexes[:self.eliteCount]]`;
with `self.indexes = None` the slice raises `TypeError`. -/
def elitesE (b : BRKGA) : Except PyExc (List Row) :=
  match b.indexes with
  | none => .error .typeError
  | some idx => .ok (eliteRows b idx)

/-- The `BRKGA.nonelites` property: `self.keys[self.indexes[self.eliteCount:]]`. -/
def nonelitesE (b : BRKGA) : Except PyExc (List Row) :=
  match b.indexes with
  | none => .error .typeError
  | some idx => .ok (tensorIndex b.keys (pySlice idx b.eliteCount idx.length))

/-- The order on row indices induced by the fitness values: row `i` comes
no later than row `j` in the requested sort direction. -/
def keyOrder (results : List Gene) (descending : Bool) (i j : ℕ) : Prop :=
  if descending then results.getD j 0 ≤ results.getD i 0
  else results.getD i 0 ≤ results.getD j 0

instance (results : List Gene) (descending : Bool) (i j : ℕ) :
    Decidable (keyOrder results descending i j) :=
  inferInstanceAs (Decidable (if descending then _ ≤ _ else _ ≤ _))

/-- The sortedness contract of `results.sort(descending)`: ascending order
along the returned index list, descending when the flag is set. -/
def sortedAlong (results : List Gene) (descending : Bool) (perm : List ℕ) : Prop :=
  List.Chain' (keyOrder results descending) perm

instance (results : List Gene) (descending : Bool) (perm : List ℕ) :
    Decidable (sortedAlong results descending perm) :=
  inferInstanceAs (Decidable (List.Chain' _ perm))

/-- The contract of `torch.Tensor.sort` as used by `BRKGA.orderBy`: the
returned index tensor is a permutation of the row indices ordering the
values.  The sort is called without a stability guarantee, so any
permutation meeting this contract is a possible output; the order of tied
values is unspecified. -/
def validSortPerm (results : List Gene) (descending : Bool) (perm : List ℕ) : Prop :=
  perm.Perm (List.range results.length) ∧ sortedAlong results descending perm

instance (results : List Gene) (descending : Bool) (perm : List ℕ) :
    Decidable (validSortPerm results descending perm) :=
  inferInstanceAs (Decidable (_ ∧ _))

/-- The tie-breaking property the specification ascribes to `rank()`:
equal fitness values keep their original row order (stable sort).
Stated from the spec's words, to be compared against the sort contract the
source actually relies on. -/
def stableTieOrder (results : List Gene) (perm : List ℕ) : Prop :=
  ∀ k, k < perm.length → ∀ l, l < perm.length → k < l →
    results.getD (perm.getD k 0) 0 = results.getD (perm.getD l 0) 0 →
    perm.getD k 0 < perm.getD l 0

instance (results : List Gene) (perm : List ℕ) :
    Decidable (stableTieOrder results perm) :=
  inferInstanceAs (Decidable (∀ k, k < perm.length → ∀ l, l < perm.length → _ → _ → _))

/-- The state update of `BRKGA.orderBy`: store the sort permutation in
`self.indexes`. -/
def orderByUpd (b : BRKGA) (perm : List ℕ) : BRKGA :=
  { b with indexes := some perm }

/-- The return value of `BRKGA.orderBy`: `(values[0], self.keys[indexes[0]])`,
the best score and its key row. -/
def orderByRet (b : BRKGA) (results : List Gene) (perm : List ℕ) : Gene × Row :=
  (results.getD (perm.getD 0 0) 0, b.keys.getD (perm.getD 0 0) [])

/-- `clamp(min=0, max=1)` on one tensor entry: values below `0` become `0`,
values above `1` become `1`, everything else is unchanged. -/
def clamp01 (x : Gene) : Gene := if x < 0 then 0 else if 1 < x then 1 else x

/-- `BRKGA.optimize` with the plain SGD optimizer (`optSGD`, zero momentum,
no weight decay): `optimizer.step()` performs `keys -= lr * grad` but skips
the parameter entirely when its gradient buffer is absent (`p.grad is
None`), `optimizer.zero_grad()` zeroes the gradient buffer when present,
and `clamp_(min=0, max=1)` always runs.  Returns the new keys and the new
gradient buffer. -/
def optimizeSGD (lr : ℚ) (keys : List Row) (grads : Option (List Row)) :
    List Row × Option (List Row) :=
  match grads with
  | none => (keys.map (List.map clamp01), none)
  | some g =>
      ((keys.zipWith (fun krow grow =>
          krow.zipWith (fun k gr => k - lr * gr) grow) g).map (List.map clamp01),
       some (g.map (List.map (fun _ => 0))))

/-- `BRKGA.optimize` (SGD) with the exception channel: its body raises
nothing, even when no gradients were ever computed. -/
def optimizeSGDE (lr : ℚ) (keys : List Row) (grads : Option (List Row)) :
    Except PyExc (List Row × Option (List Row)) :=
  .ok (optimizeSGD lr keys grads)

/-- Every entry of every row lies in the unit interval `[0,1]`. -/
def inUnit (t : List Row) : Prop :=
  ∀ row ∈ t, ∀ x ∈ row, 0 ≤ x ∧ x ≤ 1

instance (t : List Row) : Decidable (inUnit t) :=
  inferInstanceAs (Decidable (∀ row ∈ t, ∀ x ∈ row, _ ∧ _))

/-- Every row has length `w` (the flattened `keyShape` width). -/
def rowsWidth (t : List Row) (w : ℕ) : Prop :=
  ∀ row ∈ t, row.length = w

instance (t : List Row) (w : ℕ) : Decidable (rowsWidth t w) :=
  inferInstanceAs (Decidable (∀ row ∈ t, _ = _))

/-- A concrete four-row, two-gene population used to instantiate the
hypotheses of the proved theorems. -/
def wKeys : List Row := [[mkRat 1 2, mkRat 1 4], [0, 1], [mkRat 1 3, mkRat 2 3], [1, 0]]

/-- A concrete ranking of `wKeys` (a permutation of `0..3`). -/
def wIdx : List ℕ := [2, 0, 3, 1]

/-- A concrete ranked population: `eliteCount = 1`, `mutantCount = 1`,
`nonMutantCount = 3`. -/
def wB : BRKGA where
  keys := wKeys
  indexes := some wIdx
  eliteCount := 1
  mutantCount := 1
  nonMutantCount := 3

/-- Concrete random draws for one `evolve` call on `wB`. -/
def wR : EvolveRand where
  mutants := [[mkRat 1 5, mkRat 2 5]]
  eliteSel := [0, 0, 0]
  poolSel := [2, 0, 1]
  coins := [[true, false], [false, false], [true, true]]

/-!
## Helper lemmas about the list plumbing
-/

theorem getD_eq_getElem (l : List α) (i : ℕ) (d : α) (h : i < l.length) :
    l.getD i d = l[i] := by
  rw [List.getD_eq_getElem?_getD, List.getElem?_eq_getElem h]; rfl

theorem getD_mem_or (l : List α) (i : ℕ) (d : α) : l.getD i d ∈ l ∨ l.getD i d = d := by
  by_cases h : i < l.length
  · left
    rw [getD_eq_getElem l i d h]
    exact List.getElem_mem h
  · right
    rw [List.getD_eq_getElem?_getD, List.getElem?_eq_none (le_of_not_lt h)]
    rfl

theorem getD_map_of_lt (f : α → β) (l : List α) (i : ℕ) (d : β) (d₀ : α)
    (h : i < l.length) : (l.map f).getD i d = f (l.getD i d₀) := by
  rw [getD_eq_getElem (l.map f) i d (by simpa using h), getD_eq_getElem l i d₀ h]
  simp

theorem getD_append_left (l₁ l₂ : List α) (i : ℕ) (d : α) (h : i < l₁.length) :
    (l₁ ++ l₂).getD i d = l₁.getD i d := by
  rw [List.getD_eq_getElem?_getD, List.getD_eq_getElem?_getD, List.getElem?_append,
    if_pos h]

theorem getD_append_right (l₁ l₂ : List α) (i : ℕ) (d : α) (h : l₁.length ≤ i) :
    (l₁ ++ l₂).getD i d = l₂.getD (i - l₁.length) d := by
  rw [List.getD_eq_getElem?_getD, List.getD_eq_getElem?_getD, List.getElem?_append,
    if_neg (not_lt.mpr h)]

theorem getD_take_of_lt (l : List α) (k i : ℕ) (d : α) (h : i < k) :
    (l.take k).getD i d = l.getD i d := by
  rw [List.getD_eq_getElem?_getD, List.getD_eq_getElem?_getD, List.getElem?_take,
    if_pos h]

theorem getD_drop (l : List α) (k i : ℕ) (d : α) :
    (l.drop k).getD i d = l.getD (k + i) d := by
  rw [List.getD_eq_getElem?_getD, List.getD_eq_getElem?_getD, List.getElem?_drop]

theorem getD_forall_lt (l : List ℕ) (i bound : ℕ) (hall : ∀ s ∈ l, s < bound)
    (hi : i < l.length) : l.getD i 0 < bound := by
  rw [getD_eq_getElem l i 0 hi]
  exact hall _ (List.getElem_mem hi)

theorem getD_width (t : List Row) (w j : ℕ) (hw : rowsWidth t w) (hj : j < t.length) :
    (t.getD j []).length = w := by
  rw [getD_eq_getElem t j [] hj]
  exact hw _ (List.getElem_mem hj)

theorem zip3With_length (f : α → β → γ → δ) (as : List α) (bs : List β) (cs : List γ) :
    (zip3With f as bs cs).length = min as.length (min bs.length cs.length) := by
  induction as generalizing bs cs with
  | nil => simp [zip3With]
  | cons a as ih =>
    cases bs with
    | nil => simp [zip3With]
    | cons b bs =>
      cases cs with
      | nil => simp [zip3With]
      | cons c cs =>
        simp only [zip3With, List.length_cons, ih]
        omega

theorem zip3With_getD (f : α → β → γ → δ) (as : List α) (bs : List β) (cs : List γ)
    (i : ℕ) (da : α) (db : β) (dc : γ) (dd : δ)
    (h1 : i < as.length) (h2 : i < bs.length) (h3 : i < cs.length) :
    (zip3With f as bs cs).getD i dd = f (as.getD i da) (bs.getD i db) (cs.getD i dc) := by
  induction as generalizing bs cs i with
  | nil => simp at h1
  | cons a as ih =>
    cases bs with
    | nil => simp at h2
    | cons b bs =>
      cases cs with
      | nil => simp at h3
      | cons c cs =>
        cases i with
        | zero => simp [zip3With]
        | succ n =>
          simp only [zip3With, List.getD_cons_succ]
          exact ih bs cs n (by simpa using h1) (by simpa using h2) (by simpa using h3)

theorem mem_zip3With (f : α → β → γ → δ) (as : List α) (bs : List β) (cs : List γ)
    (x : δ) (hx : x ∈ zip3With f as bs cs) :
    ∃ a ∈ as, ∃ b ∈ bs, ∃ c ∈ cs, x = f a b c := by
  induction as generalizing bs cs with
  | nil => simp [zip3With] at hx
  | cons a as ih =>
    cases bs with
    | nil => simp [zip3With] at hx
    | cons b bs =>
      cases cs with
      | nil => simp [zip3With] at hx
      | cons c cs =>
        rcases List.mem_cons.mp hx with h | h
        · exact ⟨a, List.mem_cons_self a as, b, List.mem_cons_self b bs,
            c, List.mem_cons_self c cs, h⟩
        · obtain ⟨a₁, ha, b₁, hb, c₁, hc, hx₁⟩ := ih bs cs h
          exact ⟨a₁, List.mem_cons_of_mem a ha, b₁, List.mem_cons_of_mem b hb,
            c₁, List.mem_cons_of_mem c hc, hx₁⟩

theorem zipWith_getD (f : α → β → γ) (as : List α) (bs : List β) (i : ℕ)
    (da : α) (db : β) (dc : γ) (h1 : i < as.length) (h2 : i < bs.length) :
    (List.zipWith f as bs).getD i dc = f (as.getD i da) (bs.getD i db) := by
  rw [List.getD_eq_getElem?_getD, List.getElem?_zipWith, List.getElem?_eq_getElem h1,
    List.getElem?_eq_getElem h2, getD_eq_getElem as i da h1, getD_eq_getElem bs i db h2]
  rfl

theorem sliceIdx_natCast (n k : ℕ) : sliceIdx n (k : ℤ) = min k n := by
  unfold sliceIdx
  rw [if_neg (not_lt.mpr (Int.natCast_nonneg k)), Int.toNat_natCast]

theorem sliceIdx_zero (n : ℕ) : sliceIdx n 0 = 0 := by
  unfold sliceIdx
  rw [if_neg (lt_irrefl (0 : ℤ))]
  simp

theorem pySlice_nat (xs : List α) (e nm : ℕ) :
    pySlice xs (e : ℤ) (nm : ℤ) = (xs.take (min nm xs.length)).drop (min e xs.length) := by
  unfold pySlice
  rw [sliceIdx_natCast, sliceIdx_natCast]

theorem pySlice_zero_nat (xs : List α) (e : ℕ) (he : e ≤ xs.length) :
    pySlice xs 0 (e : ℤ) = xs.take e := by
  unfold pySlice
  rw [sliceIdx_natCast, min_eq_left he, sliceIdx_zero, List.drop_zero]

theorem pySlice_nat_getD (xs : List α) (e nm i : ℕ) (d : α)
    (henm : e ≤ nm) (hnm : nm ≤ xs.length) (hi : i < nm - e) :
    (pySlice xs (e : ℤ) (nm : ℤ)).getD i d = xs.getD (e + i) d := by
  rw [pySlice_nat, min_eq_left hnm, min_eq_left (le_trans henm hnm), getD_drop,
    getD_take_of_lt]
  omega

theorem pySlice_nat_length (xs : List α) (e nm : ℕ)
    (henm : e ≤ nm) (hnm : nm ≤ xs.length) :
    (pySlice xs (e : ℤ) (nm : ℤ)).length = nm - e := by
  rw [pySlice_nat, min_eq_left hnm, min_eq_left (le_trans henm hnm), List.length_drop,
    List.length_take, min_eq_left hnm]

theorem tensorIndex_length (t : List Row) (idxs : List ℕ) :
    (tensorIndex t idxs).length = idxs.length :=
  List.length_map idxs _

theorem tensorIndex_getD (t : List Row) (idxs : List ℕ) (i : ℕ) (h : i < idxs.length) :
    (tensorIndex t idxs).getD i [] = t.getD (idxs.getD i 0) [] :=
  getD_map_of_lt _ idxs i [] 0 h

theorem tensorIndex_mem (t : List Row) (idxs : List ℕ) (row : Row)
    (h : row ∈ tensorIndex t idxs) : row ∈ t ∨ row = [] := by
  obtain ⟨i, _, rfl⟩ := List.mem_map.mp h
  exact getD_mem_or t i []

/-!
## Lemmas about the embedded BRKGA operations
-/

theorem eliteRows_getD (b : BRKGA) (idx : List ℕ) (e k : ℕ)
    (he : b.eliteCount = (e : ℤ)) (helen : e ≤ idx.length) (hk : k < e) :
    (eliteRows b idx).getD k [] = b.keys.getD (idx.getD k 0) [] := by
  unfold eliteRows tensorIndex
  rw [he, pySlice_zero_nat idx e helen,
    getD_map_of_lt _ _ k [] 0 (by rw [List.length_take]; omega),
    getD_take_of_lt _ _ _ _ hk]

theorem eliteRows_length (b : BRKGA) (idx : List ℕ) (e : ℕ)
    (he : b.eliteCount = (e : ℤ)) (helen : e ≤ idx.length) :
    (eliteRows b idx).length = e := by
  unfold eliteRows
  rw [he, pySlice_zero_nat idx e helen, tensorIndex_length, List.length_take]
  omega

theorem eliteRows_mem (b : BRKGA) (idx : List ℕ) (row : Row)
    (h : row ∈ eliteRows b idx) : row ∈ b.keys ∨ row = [] :=
  tensorIndex_mem _ _ _ h

theorem eliteRows_width (b : BRKGA) (idx : List ℕ) (e p w k : ℕ)
    (he : b.eliteCount = (e : ℤ)) (hp : b.keys.length = p) (hil : idx.length = p)
    (hep : e ≤ p) (hidxr : ∀ j ∈ idx, j < p) (hkw : rowsWidth b.keys w)
    (hk : k < e) : ((eliteRows b idx).getD k []).length = w := by
  rw [eliteRows_getD b idx e k he (by omega) hk]
  exact getD_width _ _ _ hkw (by rw [hp]; exact getD_forall_lt idx k p hidxr (by omega))

theorem reproPool_eq (b : BRKGA) (idx : List ℕ) (mutants : List Row) (m : ℕ)
    (hm : b.mutantCount = (m : ℤ)) (hmut : mutants.length = m) :
    reproPool b idx mutants =
      tensorIndex b.keys (pySlice idx b.eliteCount b.nonMutantCount) ++ mutants := by
  unfold reproPool
  by_cases h : b.mutantCount > 0
  · rw [if_pos h]
  · rw [if_neg h]
    have hm0 : m = 0 := by rw [hm] at h; omega
    have hnil : mutants = [] := List.length_eq_zero.mp (by omega)
    rw [hnil, List.append_nil]

theorem reproPool_length (b : BRKGA) (idx : List ℕ) (mutants : List Row)
    (e nm m : ℕ)
    (he : b.eliteCount = (e : ℤ)) (hnm : b.nonMutantCount = (nm : ℤ))
    (hm : b.mutantCount = (m : ℤ)) (henm : e ≤ nm) (hnml : nm ≤ idx.length)
    (hmut : mutants.length = m) :
    (reproPool b idx mutants).length = (nm - e) + m := by
  rw [reproPool_eq b idx mutants m hm hmut, List.length_append, tensorIndex_length,
    he, hnm, pySlice_nat_length idx e nm henm hnml, hmut]

theorem reproPool_mem (b : BRKGA) (idx : List ℕ) (mutants : List Row) (row : Row)
    (h : row ∈ reproPool b idx mutants) : row ∈ b.keys ∨ row ∈ mutants ∨ row = [] := by
  unfold reproPool at h
  by_cases hc : b.mutantCount > 0
  · rw [if_pos hc] at h
    rcases List.mem_append.mp h with h | h
    · rcases tensorIndex_mem _ _ _ h with h | h
      · exact Or.inl h
      · exact Or.inr (Or.inr h)
    · exact Or.inr (Or.inl h)
  · rw [if_neg hc] at h
    rcases tensorIndex_mem _ _ _ h with h | h
    · exact Or.inl h
    · exact Or.inr (Or.inr h)

theorem reproPool_width (b : BRKGA) (idx : List ℕ) (mutants : List Row)
    (e nm m p w q : ℕ)
    (he : b.eliteCount = (e : ℤ)) (hnm : b.nonMutantCount = (nm : ℤ))
    (hm : b.mutantCount = (m : ℤ)) (henm : e ≤ nm)
    (hp : b.keys.length = p) (hil : idx.length = p) (hnmp : nm ≤ p)
    (hmut : mutants.length = m)
    (hidxr : ∀ j ∈ idx, j < p) (hkw : rowsWidth b.keys w) (hmw : rowsWidth mutants w)
    (hq : q < (nm - e) + m) :
    ((reproPool b idx mutants).getD q []).length = w := by
  rw [reproPool_eq b idx mutants m hm hmut]
  by_cases hlt : q < nm - e
  · rw [getD_append_left _ _ _ _
      (by rw [tensorIndex_length, he, hnm, pySlice_nat_length idx e nm henm (by omega)]; exact hlt)]
    unfold tensorIndex
    rw [he, hnm, getD_map_of_lt _ _ q [] 0
      (by rw [pySlice_nat_length idx e nm henm (by omega)]; exact hlt),
      pySlice_nat_getD idx e nm q 0 henm (by omega) hlt]
    exact getD_width _ _ _ hkw
      (by rw [hp]; exact getD_forall_lt idx (e + q) p hidxr (by omega))
  · rw [getD_append_right _ _ _ _
      (by rw [tensorIndex_length, he, hnm, pySlice_nat_length idx e nm henm (by omega)]; omega)]
    rw [tensorIndex_length, he, hnm, pySlice_nat_length idx e nm henm (by omega)]
    exact getD_width _ _ _ hmw (by omega)

theorem clamp01_bounds (x : Gene) : 0 ≤ clamp01 x ∧ clamp01 x ≤ 1 := by
  unfold clamp01
  split_ifs with h1 h2
  · exact ⟨le_refl 0, zero_le_one⟩
  · exact ⟨zero_le_one, le_refl 1⟩
  · exact ⟨not_lt.mp h1, not_lt.mp h2⟩

theorem clamp01_of_unit (x : Gene) (h0 : 0 ≤ x) (h1 : x ≤ 1) : clamp01 x = x := by
  unfold clamp01
  rw [if_neg (not_lt.mpr h0), if_neg (not_lt.mpr h1)]

theorem inUnit_map_clamp (t : List Row) : inUnit (t.map (List.map clamp01)) := by
  intro row hrow x hx
  obtain ⟨row₀, _, rfl⟩ := List.mem_map.mp hrow
  obtain ⟨y, _, rfl⟩ := List.mem_map.mp hx
  exact clamp01_bounds y

theorem keyOrder_refl (results : List Gene) (descending : Bool) (i : ℕ) :
    keyOrder results descending i i := by
  unfold keyOrder
  cases descending <;> simp

theorem keyOrder_isTrans (results : List Gene) (descending : Bool) :
    IsTrans ℕ (keyOrder results descending) := by
  constructor
  intro a b c hab hbc
  unfold keyOrder at hab hbc ⊢
  cases descending
  · simp only [if_neg Bool.false_ne_true] at hab hbc ⊢
    exact le_trans hab hbc
  · simp only [if_pos rfl] at hab hbc ⊢
    exact le_trans hbc hab

theorem map_clamp_of_inUnit (t : List Row) (h : inUnit t) :
    t.map (List.map clamp01) = t := by
  have hrow : ∀ row ∈ t, row.map clamp01 = id row := by
    intro row hrow
    have hx : ∀ x ∈ row, clamp01 x = id x := by
      intro x hx
      obtain ⟨h0, h1⟩ := h row hrow x hx
      rw [clamp01_of_unit x h0 h1]
      rfl
    rw [List.map_congr_left hx, List.map_id]
    rfl
  rw [List.map_congr_left hrow, List.map_id]

/-!
## Claim theorems
-/

/-- C10: for every integer arguments `elites` and `mutants`, construction
succeeds (the exception channel yields `ok`); the constructor coerces
out-of-range arguments silently, setting `eliteCount` to `elites` floored
at `1`, `mutantCount` to `mutants` floored at `0`, and `nonMutantCount` to
`populationSize - mutantCount`. -/
theorem claim_constructor_fields (initKeys : List Row) (elites mutants : ℤ) :
    (mkBRKGA initKeys elites mutants).eliteCount = (if elites < 1 then 1 else elites) ∧
    (mkBRKGA initKeys elites mutants).mutantCount = (if mutants < 0 then 0 else mutants) ∧
    (mkBRKGA initKeys elites mutants).nonMutantCount =
      (initKeys.length : ℤ) - (mkBRKGA initKeys elites mutants).mutantCount ∧
    mkBRKGAE initKeys elites mutants = .ok (mkBRKGA initKeys elites mutants) := by
  refine ⟨?_, ?_, rfl, rfl⟩
  · show max 1 elites = _
    by_cases h : elites < 1
    · rw [if_pos h, max_eq_left (le_of_lt h)]
    · rw [if_neg h, max_eq_right (not_lt.mp h)]
  · show max 0 mutants = _
    by_cases h : mutants < 0
    · rw [if_pos h, max_eq_left (le_of_lt h)]
    · rw [if_neg h, max_eq_right (not_lt.mp h)]

/-- C6 counterexample: constructing a population with `eliteCount = 0` does
NOT fail — the constructor performs no validation.  It returns a fully
formed population whose `eliteCount` was silently coerced to `1`. -/
theorem claim_config_rejection_fails :
    mkBRKGAE [[mkRat 1 2], [mkRat 1 3], [mkRat 1 4]] 0 1 =
      .ok (mkBRKGA [[mkRat 1 2], [mkRat 1 3], [mkRat 1 4]] 0 1) ∧
    (mkBRKGA [[mkRat 1 2], [mkRat 1 3], [mkRat 1 4]] 0 1).eliteCount = 1 ∧
    (mkBRKGA [[mkRat 1 2], [mkRat 1 3], [mkRat 1 4]] 0 1).keys =
      [[mkRat 1 2], [mkRat 1 3], [mkRat 1 4]] := by
  refine ⟨rfl, ?_, rfl⟩
  decide

/-- C6 amended: construction never raises `ConfigError` (no such check or
class exists); instead the counts are silently coerced into range,
`eliteCount ≥ 1` and `mutantCount ≥ 0`, and the population is created. -/
theorem claim_config_coercion (initKeys : List Row) (elites mutants : ℤ) :
    mkBRKGAE initKeys elites mutants = .ok (mkBRKGA initKeys elites mutants) ∧
    1 ≤ (mkBRKGA initKeys elites mutants).eliteCount ∧
    0 ≤ (mkBRKGA initKeys elites mutants).mutantCount ∧
    (mkBRKGA initKeys elites mutants).keys = initKeys :=
  ⟨rfl, le_max_left 1 elites, le_max_left 0 mutants, rfl⟩

/-- C7: a plain SGD step maps every key entry `k` with gradient `gr` to
`clamp(k - lr * gr, 0, 1)`, and the gradient buffer is zeroed afterwards. -/
theorem claim_sgd_step (lr : ℚ) (keys grads : List Row) (w : ℕ)
    (hl : grads.length = keys.length) (hw : rowsWidth keys w) (hg : rowsWidth grads w)
    (i g : ℕ) (hi : i < keys.length) (hgi : g < w) :
    (((optimizeSGD lr keys (some grads)).1).getD i []).getD g 0 =
      clamp01 ((keys.getD i []).getD g 0 - lr * ((grads.getD i []).getD g 0)) ∧
    (∀ grow ∈ ((optimizeSGD lr keys (some grads)).2).getD [], ∀ x ∈ grow, x = 0) := by
  constructor
  · show ((List.map (List.map clamp01) _).getD i []).getD g 0 = _
    have hzl : i < (keys.zipWith (fun krow grow =>
        krow.zipWith (fun k gr => k - lr * gr) grow) grads).length := by
      rw [List.length_zipWith]
      omega
    rw [getD_map_of_lt _ _ i [] [] hzl,
      zipWith_getD _ keys grads i [] [] [] hi (by omega)]
    have hkl : g < (keys.getD i []).length := by
      rw [getD_width keys w i hw hi]
      exact hgi
    have hgl : g < (grads.getD i []).length := by
      rw [getD_width grads w i hg (by omega)]
      exact hgi
    rw [getD_map_of_lt clamp01 _ g 0 0 (by rw [List.length_zipWith]; omega),
      zipWith_getD _ _ _ g 0 0 0 hkl hgl]
  · intro grow hgrow x hx
    obtain ⟨grow₀, _, rfl⟩ := List.mem_map.mp hgrow
    obtain ⟨y, _, rfl⟩ := List.mem_map.mp hx
    rfl

/-- C7 witness: the spec scenario — key `0.05`, gradient `10.0`, learning
rate `1.0`; after one SGD step the key is `0` (clamped), not `-9.95`. -/
theorem claim_sgd_step_inst :
    (((optimizeSGD 1 [[mkRat 1 20]] (some [[10]])).1).getD 0 []).getD 0 0 = 0 := by
  have h := claim_sgd_step 1 [[mkRat 1 20]] [[10]] 1 rfl (by decide) (by decide)
    0 0 (by decide) (by decide)
  rw [h.1]
  show clamp01 (mkRat 1 20 - 1 * 10) = 0
  unfold clamp01
  rw [if_pos (by rw [Rat.mkRat_eq_div]; norm_num)]

/-- C8 counterexample: calling `optimize()` when no gradients were ever
computed does not raise `StateError` — the SGD step skips parameters with
an absent gradient buffer, so the call silently returns with the (already
in-range) keys unchanged. -/
theorem claim_nograd_no_state_error :
    optimizeSGDE 1 [[mkRat 1 2]] none = .ok ([[mkRat 1 2]], none) ∧
    optimizeSGDE 1 [[mkRat 1 2]] none ≠ .error .stateError := by
  have h1 : optimizeSGDE 1 [[mkRat 1 2]] none = .ok ([[mkRat 1 2]], none) := by
    show Except.ok (([[mkRat 1 2]] : List Row).map (List.map clamp01), none) = _
    rw [map_clamp_of_inUnit _ (by decide)]
  refine ⟨h1, ?_⟩
  rw [h1]
  intro hcontra
  exact Except.noConfusion hcontra

/-- C8 amended: requesting the gradient step with no gradients available
silently leaves the keys unchanged (for keys already in `[0,1]`, the
trailing clamp is the identity) and raises nothing. -/
theorem claim_nograd_silent (lr : ℚ) (keys : List Row) (h : inUnit keys) :
    optimizeSGDE lr keys none = .ok (keys, none) := by
  show Except.ok (keys.map (List.map clamp01), none) = _
  rw [map_clamp_of_inUnit keys h]

/-- C8 amended, witness at a concrete in-range population. -/
theorem claim_nograd_silent_inst :
    optimizeSGDE 1 [[mkRat 1 4, mkRat 3 4]] none = .ok ([[mkRat 1 4, mkRat 3 4]], none) :=
  claim_nograd_silent 1 [[mkRat 1 4, mkRat 3 4]] (by decide)

/-- C9 counterexample: accessing `elites` on a freshly constructed
population (no `orderBy` yet) raises Python's `TypeError` (subscripting
`None`), which is not a dedicated `PreconditionError` — no class of that
name exists in the code. -/
theorem claim_unranked_type_error :
    elitesE (mkBRKGA [[mkRat 1 2], [mkRat 1 3]] 1 1) = .error .typeError ∧
    PyExc.typeError ≠ PyExc.preconditionError :=
  ⟨rfl, by decide⟩

/-- C9 amended: accessing `elites`, `nonelites` or `evolve()` without a
ranking since construction does fail — with a `TypeError` from
subscripting the `None` ranking — rather than returning a stale or empty
elite set. -/
theorem claim_unranked_raises (b : BRKGA) (r : EvolveRand) (h : b.indexes = none) :
    elitesE b = .error .typeError ∧
    nonelitesE b = .error .typeError ∧
    evolveE b r = .error .typeError := by
  unfold elitesE nonelitesE evolveE
  rw [h]
  exact ⟨rfl, rfl, rfl⟩

/-- C9 amended, witness: a freshly constructed population. -/
theorem claim_unranked_raises_inst :
    elitesE (mkBRKGA [[mkRat 1 3]] 1 0) = .error .typeError ∧
    nonelitesE (mkBRKGA [[mkRat 1 3]] 1 0) = .error .typeError ∧
    evolveE (mkBRKGA [[mkRat 1 3]] 1 0) wR = .error .typeError :=
  claim_unranked_raises (mkBRKGA [[mkRat 1 3]] 1 0) wR rfl

/-- C2 counterexample: ties are NOT guaranteed to keep their original row
order.  `torch.Tensor.sort` is invoked without a stability guarantee, so on
the tied fitness vector `[1, 1]` the index permutation `[1, 0]` is a
permitted output of the sort contract, and it violates the stable tie
order the claim asserts. -/
theorem claim_rank_stability_fails :
    validSortPerm [(1:ℚ), 1] false [1, 0] ∧ ¬ stableTieOrder [(1:ℚ), 1] [1, 0] := by
  refine ⟨⟨by decide, ?_⟩, by decide⟩
  simp only [sortedAlong, List.chain'_cons, List.chain'_singleton, and_true]
  decide

/-- C2 amended: `rank`/`orderBy` stores a ranking that is a permutation of
the row indices ordering the fitness values (non-decreasing along the
ranking; non-increasing when `descending`), and returns the best score
together with its key row; the order of tied values is unspecified (the
sort carries no stability guarantee). -/
theorem claim_rank_correct_amended (b : BRKGA) (results : List Gene)
    (descending : Bool) (perm : List ℕ)
    (h : validSortPerm results descending perm) :
    perm.Perm (List.range results.length) ∧
    (∀ k l, k < l → l < perm.length →
      keyOrder results descending (perm.getD k 0) (perm.getD l 0)) ∧
    (∀ i, i < results.length → keyOrder results descending (perm.getD 0 0) i) ∧
    orderByRet b results perm =
      (results.getD (perm.getD 0 0) 0, b.keys.getD (perm.getD 0 0) []) ∧
    (orderByUpd b perm).indexes = some perm := by
  obtain ⟨hperm, hsort⟩ := h
  haveI : IsTrans ℕ (keyOrder results descending) := keyOrder_isTrans results descending
  have hpw : List.Pairwise (keyOrder results descending) perm :=
    List.chain'_iff_pairwise.mp hsort
  have hmono : ∀ k l, k < l → l < perm.length →
      keyOrder results descending (perm.getD k 0) (perm.getD l 0) := by
    intro k l hkl hl
    have hk : k < perm.length := lt_trans hkl hl
    rw [getD_eq_getElem perm k 0 hk, getD_eq_getElem perm l 0 hl]
    exact List.pairwise_iff_getElem.mp hpw k l hk hl hkl
  refine ⟨hperm, hmono, ?_, rfl, rfl⟩
  intro i hi
  have hmem : i ∈ perm := hperm.mem_iff.mpr (List.mem_range.mpr hi)
  obtain ⟨k, hk, hki⟩ := List.getElem_of_mem hmem
  rcases Nat.eq_zero_or_pos k with rfl | hkpos
  · rw [← hki, ← getD_eq_getElem perm 0 0 hk]
    exact keyOrder_refl results descending _
  · have hmk := hmono 0 k hkpos hk
    rw [getD_eq_getElem perm k 0 hk, hki] at hmk
    exact hmk

/-- C2 amended, witness: fitness vector `[3, 1, 2]` with valid ranking
`[1, 2, 0]`; the head of the ranking is the best (least) row. -/
theorem claim_rank_correct_amended_inst :
    keyOrder [(3:ℚ), 1, 2] false (([1, 2, 0] : List ℕ).getD 0 0) 0 ∧
    ([1, 2, 0] : List ℕ).Perm (List.range 3) := by
  have hs : sortedAlong [(3:ℚ), 1, 2] false [1, 2, 0] := by
    simp only [sortedAlong, List.chain'_cons, List.chain'_singleton, and_true]
    exact ⟨by decide, by decide⟩
  have h := claim_rank_correct_amended wB [(3:ℚ), 1, 2] false [1, 2, 0]
    ⟨by decide, hs⟩
  exact ⟨h.2.2.1 0 (by decide), h.1⟩

/-- C1: after `evolve()`, row `k < eliteCount` of the new population is
exactly the pre-evolve row `keys[ranking[k]]` — the elite rows selected by
the most recent ranking, value for value, in rank order, occupying the
first `eliteCount` rows. -/
theorem claim_elite_preservation (b : BRKGA) (idx : List ℕ) (r : EvolveRand)
    (e k : ℕ) (hidx : b.indexes = some idx) (he : b.eliteCount = (e : ℤ))
    (helen : e ≤ idx.length) (hk : k < e) :
    (evolveKeys b idx r).getD k [] = b.keys.getD (idx.getD k 0) [] ∧
    evolveE b r = .ok (evolveKeys b idx r) := by
  constructor
  · unfold evolveKeys
    rw [getD_append_left _ _ _ _ (by rw [eliteRows_length b idx e he helen]; exact hk)]
    exact eliteRows_getD b idx e k he helen hk
  · unfold evolveE
    rw [hidx]

/-- C1 witness: on the concrete ranked population, row `0` of the evolved
population is the pre-evolve best row `wKeys[wIdx[0]] = wKeys[2]`. -/
theorem claim_elite_preservation_inst :
    (evolveKeys wB wIdx wR).getD 0 [] = wKeys.getD 2 [] :=
  (claim_elite_preservation wB wIdx wR 1 0 rfl rfl (by decide) (by decide)).1

/-- C4: every gene of a population whose keys lie in `[0,1]` still lies in
`[0,1]` after `evolve()` (for any admissible random draws with in-range
mutants), and after an SGD `optimize()` step every gene lies in `[0,1]`
unconditionally — whatever the keys, gradients and learning rate. -/
theorem claim_bounds_invariant (b : BRKGA) (idx : List ℕ) (r : EvolveRand)
    (hkeys : inUnit b.keys) (hmut : inUnit r.mutants) :
    inUnit (evolveKeys b idx r) ∧
    (∀ lr keys grads, inUnit (optimizeSGD lr keys grads).1) := by
  constructor
  · intro row hrow x hx
    unfold evolveKeys at hrow
    rcases List.mem_append.mp hrow with h | h
    · rcases eliteRows_mem b idx row h with h2 | rfl
      · exact hkeys row h2 x hx
      · simp at hx
    · obtain ⟨c, hc, a, ha, bb, hbb, rfl⟩ := mem_zip3With _ _ _ _ row h
      unfold crossRow at hx
      obtain ⟨cc, hcc, xa, hxa, xb, hxb, rfl⟩ := mem_zip3With _ _ _ _ x hx
      have hxab : (if cc then xa else xb) ∈ a ∨ (if cc then xa else xb) ∈ bb := by
        cases cc
        · right
          simpa using hxb
        · left
          simpa using hxa
      rcases hxab with hmem | hmem
      · rcases tensorIndex_mem _ _ _ ha with ha2 | rfl
        · rcases eliteRows_mem b idx a ha2 with ha3 | rfl
          · exact hkeys a ha3 _ hmem
          · simp at hmem
        · simp at hmem
      · rcases tensorIndex_mem _ _ _ hbb with hb2 | rfl
        · rcases reproPool_mem b idx r.mutants bb hb2 with h3 | h3 | rfl
          · exact hkeys bb h3 _ hmem
          · exact hmut bb h3 _ hmem
          · simp at hmem
        · simp at hmem
  · intro lr keys grads
    cases grads with
    | none => exact inUnit_map_clamp keys
    | some g => exact inUnit_map_clamp _

/-- C4 witness: the concrete in-range population and draws stay in range
after `evolve`, and an SGD step is in range unconditionally. -/
theorem claim_bounds_invariant_inst :
    inUnit (evolveKeys wB wIdx wR) ∧ inUnit (optimizeSGD 1 wKeys (some wKeys)).1 := by
  have h := claim_bounds_invariant wB wIdx wR (by decide) (by decide)
  exact ⟨h.1, h.2 1 wKeys (some wKeys)⟩

/-- C5: for every valid configuration and ranked population, `evolve()`
preserves the population shape — same number of rows as before, and every
row of the new population has the key width `w`. -/
theorem claim_shape_invariant (b : BRKGA) (idx : List ℕ) (r : EvolveRand)
    (e m nm p w : ℕ)
    (hidx : b.indexes = some idx)
    (he : b.eliteCount = (e : ℤ)) (hm : b.mutantCount = (m : ℤ))
    (hnm : b.nonMutantCount = (nm : ℤ))
    (hp : b.keys.length = p) (hil : idx.length = p)
    (henm : e ≤ nm) (hnmp : nm + m = p)
    (hmut : r.mutants.length = m)
    (hes : r.eliteSel.length = p - e) (hps : r.poolSel.length = p - e)
    (hcs : r.coins.length = p - e)
    (hesr : ∀ s ∈ r.eliteSel, s < e) (hpsr : ∀ s ∈ r.poolSel, s < p - e)
    (hidxr : ∀ j ∈ idx, j < p)
    (hkw : rowsWidth b.keys w) (hmw : rowsWidth r.mutants w)
    (hcw : ∀ c ∈ r.coins, c.length = w) :
    (evolveKeys b idx r).length = b.keys.length ∧
    rowsWidth (evolveKeys b idx r) w := by
  have hep : e ≤ p := by omega
  have helen : e ≤ idx.length := by omega
  constructor
  · unfold evolveKeys
    rw [List.length_append, eliteRows_length b idx e he helen, zip3With_length,
      tensorIndex_length, tensorIndex_length, hes, hps, hcs, hp]
    omega
  · intro row hrow
    unfold evolveKeys at hrow
    rcases List.mem_append.mp hrow with h | h
    · have hconv : eliteRows b idx = (idx.take e).map (fun j => b.keys.getD j []) := by
        unfold eliteRows tensorIndex
        rw [he, pySlice_zero_nat idx e helen]
      rw [hconv] at h
      obtain ⟨j, hj, heq⟩ := List.mem_map.mp h
      rw [← heq]
      exact getD_width b.keys w j hkw
        (by rw [hp]; exact hidxr j (List.take_subset e idx hj))
    · obtain ⟨c, hc, a, ha, bb, hbb, rfl⟩ := mem_zip3With _ _ _ _ row h
      unfold crossRow
      rw [zip3With_length]
      have hcl : c.length = w := hcw c hc
      have hal : a.length = w := by
        obtain ⟨s, hs, heq⟩ := List.mem_map.mp ha
        rw [← heq]
        exact eliteRows_width b idx e p w s he hp hil hep hidxr hkw (hesr s hs)
      have hbl : bb.length = w := by
        obtain ⟨t, ht, heq⟩ := List.mem_map.mp hbb
        rw [← heq]
        exact reproPool_width b idx r.mutants e nm m p w t he hnm hm henm hp hil
          (by omega) hmut hidxr hkw hmw (by have := hpsr t ht; omega)
      rw [hcl, hal, hbl, min_self, min_self]

/-- C5 witness: the concrete ranked population keeps its `4 × 2` shape. -/
theorem claim_shape_invariant_inst :
    (evolveKeys wB wIdx wR).length = wB.keys.length ∧
    rowsWidth (evolveKeys wB wIdx wR) 2 :=
  claim_shape_invariant wB wIdx wR 1 1 3 4 2 rfl (by decide) (by decide) (by decide)
    (by decide) (by decide) (by decide) (by decide) (by decide) (by decide) (by decide)
    (by decide) (by decide) (by decide) (by decide) (by decide) (by decide) (by decide)

/-- C3: the reproduction pool rows `0..nonMutantCount-eliteCount-1` are the
pre-evolve rows `keys[ranking[eliteCount+q]]` carried over unchanged, the
remaining pool rows are the fresh mutants, the pool has
`populationSize - eliteCount` rows, and each gene `g` of offspring slot `i`
equals the elite parent's gene when the coin for `(i, g)` is heads and the
pool parent's gene otherwise — where the elite parent is
`keys[ranking[eliteSel i]]` and the pool parent is row `poolSel i` of the
pool, both selectors arbitrary in-range draws (with replacement). -/
theorem claim_crossover_structure (b : BRKGA) (idx : List ℕ) (r : EvolveRand)
    (e m nm p w : ℕ)
    (hidx : b.indexes = some idx)
    (he : b.eliteCount = (e : ℤ)) (hm : b.mutantCount = (m : ℤ))
    (hnm : b.nonMutantCount = (nm : ℤ))
    (hp : b.keys.length = p) (hil : idx.length = p)
    (henm : e ≤ nm) (hnmp : nm + m = p)
    (hmut : r.mutants.length = m)
    (hes : r.eliteSel.length = p - e) (hps : r.poolSel.length = p - e)
    (hcs : r.coins.length = p - e)
    (hesr : ∀ s ∈ r.eliteSel, s < e) (hpsr : ∀ s ∈ r.poolSel, s < p - e)
    (hidxr : ∀ j ∈ idx, j < p)
    (hkw : rowsWidth b.keys w) (hmw : rowsWidth r.mutants w)
    (hcw : ∀ c ∈ r.coins, c.length = w) :
    (∀ q, q < nm - e →
      (reproPool b idx r.mutants).getD q [] = b.keys.getD (idx.getD (e + q) 0) []) ∧
    (∀ q, nm - e ≤ q → q < p - e →
      (reproPool b idx r.mutants).getD q [] = r.mutants.getD (q - (nm - e)) []) ∧
    (reproPool b idx r.mutants).length = p - e ∧
    (∀ i, i < p - e → ∀ g, g < w →
      ((evolveKeys b idx r).getD (e + i) []).getD g 0 =
        if (r.coins.getD i []).getD g false then
          (b.keys.getD (idx.getD (r.eliteSel.getD i 0) 0) []).getD g 0
        else
          ((reproPool b idx r.mutants).getD (r.poolSel.getD i 0) []).getD g 0) := by
  have hep : e ≤ p := by omega
  have helen : e ≤ idx.length := by omega
  have hpool := reproPool_eq b idx r.mutants m hm hmut
  have hslice_len : (pySlice idx (e : ℤ) (nm : ℤ)).length = nm - e :=
    pySlice_nat_length idx e nm henm (by omega)
  refine ⟨?_, ?_, ?_, ?_⟩
  · intro q hq
    rw [hpool, he, hnm,
      getD_append_left _ _ _ _ (by rw [tensorIndex_length, hslice_len]; exact hq),
      tensorIndex_getD _ _ q (by rw [hslice_len]; exact hq),
      pySlice_nat_getD idx e nm q 0 henm (by omega) hq]
  · intro q hq1 hq2
    rw [hpool, he, hnm,
      getD_append_right _ _ _ _ (by rw [tensorIndex_length, hslice_len]; exact hq1),
      tensorIndex_length, hslice_len]
  · rw [reproPool_length b idx r.mutants e nm m he hnm hm henm (by omega) hmut]
    omega
  · intro i hi g hg
    have hic : i < r.coins.length := by rw [hcs]; exact hi
    have hie : i < (tensorIndex (eliteRows b idx) r.eliteSel).length := by
      rw [tensorIndex_length, hes]; exact hi
    have hip : i < (tensorIndex (reproPool b idx r.mutants) r.poolSel).length := by
      rw [tensorIndex_length, hps]; exact hi
    have hs_lt : r.eliteSel.getD i 0 < e :=
      getD_forall_lt r.eliteSel i e hesr (by rw [hes]; exact hi)
    have hLHS : (evolveKeys b idx r).getD (e + i) [] =
        crossRow (r.coins.getD i [])
          (b.keys.getD (idx.getD (r.eliteSel.getD i 0) 0) [])
          ((reproPool b idx r.mutants).getD (r.poolSel.getD i 0) []) := by
      unfold evolveKeys
      rw [getD_append_right _ _ _ _ (by rw [eliteRows_length b idx e he helen]; omega),
        eliteRows_length b idx e he helen, Nat.add_sub_cancel_left,
        zip3With_getD crossRow r.coins _ _ i [] [] [] [] hic hie hip,
        tensorIndex_getD (eliteRows b idx) r.eliteSel i (by rw [hes]; exact hi),
        eliteRows_getD b idx e _ he helen hs_lt,
        tensorIndex_getD (reproPool b idx r.mutants) r.poolSel i (by rw [hps]; exact hi)]
    rw [hLHS]
    unfold crossRow
    have hclen : g < (r.coins.getD i []).length := by
      rw [getD_eq_getElem r.coins i [] hic, hcw _ (List.getElem_mem hic)]
      exact hg
    have halen : g < (b.keys.getD (idx.getD (r.eliteSel.getD i 0) 0) []).length := by
      rw [getD_width b.keys w _ hkw
        (by rw [hp]; exact getD_forall_lt idx _ p hidxr (by omega))]
      exact hg
    have hblen : g < ((reproPool b idx r.mutants).getD (r.poolSel.getD i 0) []).length := by
      rw [reproPool_width b idx r.mutants e nm m p w _ he hnm hm henm hp hil
        (by omega) hmut hidxr hkw hmw
        (by have := getD_forall_lt r.poolSel i (p - e) hpsr (by rw [hps]; exact hi); omega)]
      exact hg
    exact zip3With_getD _ _ _ _ g false 0 0 0 hclen halen hblen

/-- C3 witness: offspring slot `0` (row `1` of the evolved concrete
population), gene `0`, equals the elite parent's gene since its coin is
heads; pool row `0` is the carried-over ranked row `keys[wIdx[1]]`. -/
theorem claim_crossover_structure_inst :
    (reproPool wB wIdx wR.mutants).getD 0 [] = wB.keys.getD (wIdx.getD 1 0) [] ∧
    ((evolveKeys wB wIdx wR).getD 1 []).getD 0 0 =
      if (wR.coins.getD 0 []).getD 0 false then
        (wB.keys.getD (wIdx.getD (wR.eliteSel.getD 0 0) 0) []).getD 0 0
      else
        ((reproPool wB wIdx wR.mutants).getD (wR.poolSel.getD 0 0) []).getD 0 0 := by
  have h := claim_crossover_structure wB wIdx wR 1 1 3 4 2 rfl (by decide) (by decide)
    (by decide) (by decide) (by decide) (by decide) (by decide) (by decide) (by decide)
    (by decide) (by decide) (by decide) (by decide) (by decide) (by decide) (by decide)
    (by decide)
  exact ⟨h.1 0 (by decide), h.2.2.2 0 (by decide) 0 (by decide)⟩

end Brkga
